import Mathlib

/-!
# Verification of the Cisco-XR LAG capacity report core (`main_cisco.py`)

A shallow embedding of the text-parsing and classification engine of
`main_cisco.py`: the stanza splitter and field extractors of
`parse_cisco_xr`, the utilization classifier `classify_util`, and the
mismatch detector `capacity_mismatch`.

Modelling conventions:
* Python strings are `List Char` (the raw device output enters as a Lean
  `String` and is converted with `String.toList`); Python floats are `ℚ`
  (every numeric literal of the source — `1e9`, `1e3`, `0.60`, `0.80`,
  `0.02` — is exactly representable, as are all parsed integer values);
* the character classes `\d`, `\s`, `\w` and case folding are modelled over
  ASCII (router CLI output is ASCII; Python's Unicode extensions of these
  classes are out of scope);
* each regular expression of the source is compiled by hand into a
  deterministic scanner.  Every pattern in the source is such that the
  greedy sub-matches (`\d+`, `\s*`, `[^\n]*`) never need backtracking into
  shorter alternatives except in one documented corner of the
  `Description:` pattern, which is reproduced exactly;
* Python exceptions are an `Except String` result.  The only statement of
  `parse_cisco_xr` that could raise is the division
  `max_in_bps/avail_bps`, embedded as `qdivExc`;
* Python truthiness of an optional float (`None` and `0.0` are falsy) is
  the function `truthy`.
-/

/-! ## Character classes (ASCII models of `\s`, `\d`, `\w`, `re.I`) -/

/-- Python `\s` over ASCII: space, tab, newline, carriage return, vertical
tab, form feed. -/
def isSpace (c : Char) : Bool :=
  c == ' ' || c == '\t' || c == '\n' || c == '\r' || c == '\x0b' || c == '\x0c'

/-- Python `\w` over ASCII: letters, digits, underscore. -/
def isWordChar (c : Char) : Bool :=
  c.isAlpha || c.isDigit || c == '_'

/-- ASCII case-insensitive character equality, the model of `re.IGNORECASE`:
equal outright, or equal up to the 32-point upper/lower offset. -/
def lowEq (a b : Char) : Bool :=
  a == b || (a.isUpper && b.isLower && a.toNat + 32 == b.toNat)
         || (a.isLower && b.isUpper && a.toNat == b.toNat + 32)

/-! ## Scanner primitives -/

/-- Consume the literal `pat` from the front of `s` (case-sensitive);
`some rest` on success. -/
def stripLit : List Char → List Char → Option (List Char)
  | [], s => some s
  | _ :: _, [] => none
  | p :: ps, c :: cs => if c == p then stripLit ps cs else none

/-- Consume the literal `pat` from the front of `s` case-insensitively;
`some rest` on success. -/
def stripCI : List Char → List Char → Option (List Char)
  | [], s => some s
  | _ :: _, [] => none
  | p :: ps, c :: cs => if lowEq c p then stripCI ps cs else none

/-- Leftmost-match search: try the anchored matcher `f` at every suffix of
`s`, left to right (the semantics of `re.search` for a pattern with no
`^` anchor). -/
def searchFirst {α : Type} (f : List Char → Option α) : List Char → Option α
  | [] => f []
  | c :: rest =>
    match f (c :: rest) with
    | some r => some r
    | none => searchFirst f rest

/-- `containsStr pat s`: the literal `pat` occurs in `s` (case-sensitive). -/
def containsStr (pat s : List Char) : Bool :=
  (searchFirst (stripLit pat) s).isSome

/-- `containsCI pat s`: the literal `pat` occurs in `s` up to ASCII case. -/
def containsCI (pat s : List Char) : Bool :=
  (searchFirst (stripCI pat) s).isSome

/-- Auxiliary for `searchLines`: try `f` after every newline of `s`, in
order. -/
def searchLinesAux {α : Type} (f : List Char → Option α) : List Char → Option α
  | [] => none
  | c :: rest =>
    if c == '\n' then
      match f rest with
      | some r => some r
      | none => searchLinesAux f rest
    else searchLinesAux f rest

/-- Leftmost-match search for a `^`-anchored pattern under `re.M`: try the
matcher `f` at the start of `s` and after every newline, left to right. -/
def searchLines {α : Type} (f : List Char → Option α) (s : List Char) : Option α :=
  match f s with
  | some r => some r
  | none => searchLinesAux f s

/-- Python `str.strip()` over the ASCII whitespace model. -/
def pstrip (s : List Char) : List Char :=
  ((s.dropWhile isSpace).reverse.dropWhile isSpace).reverse

/-- Value of a run of ASCII digits, the model of Python `float` on a
`\d+` capture. -/
def digitsToNat (l : List Char) : ℕ :=
  l.foldl (fun n c => 10 * n + (c.toNat - 48)) 0

/-- Value of a decimal capture `\d+(?:\.\d+)?`, the model of Python
`float` on the `[BW=…G]` capture (exact: no binary rounding). -/
def parseDec (t : List Char) : ℚ :=
  let ip := t.takeWhile (· != '.')
  let fp := (t.dropWhile (· != '.')).drop 1
  (digitsToNat ip : ℚ) + (digitsToNat fp : ℚ) / 10 ^ fp.length

/-! ## The regular expressions of `parse_cisco_xr`, compiled by hand -/

/-- The 12-character literal opening a stanza header. -/
def bundleLit : List Char := "Bundle-Ether".toList

/-- The status literal of the stanza-splitting lookahead. -/
def upLit : List Char := " is up, line protocol is".toList

/-- The opening of the configured-capacity tag. -/
def bwOpen : List Char := "[BW=".toList

/-- The closing of the configured-capacity tag. -/
def bwClose : List Char := "G]".toList

/-- `headerAt s`: the pattern `Bundle-Ether[^\n]* is up, line protocol is`
matches at the start of `s` — the literal `bundleLit`, then the literal
`upLit` somewhere later in the same line. -/
def headerAt (s : List Char) : Bool :=
  (stripLit bundleLit s).isSome
    && containsStr upLit ((s.drop 12).takeWhile (· != '\n'))

/-- Worker for `splitStanzas`: `cur` is the reversed current segment,
`atLS` whether the scan sits at a line start (where `^` matches under
`re.M`). -/
def splitGo : List Char → List Char → Bool → List (List Char)
  | [], cur, _ => [cur.reverse]
  | c :: rest, cur, atLS =>
    if atLS && headerAt (c :: rest) then
      cur.reverse :: splitGo rest [c] false
    else
      splitGo rest (c :: cur) (c == '\n')

/-- The stanza split
`re.split(r"(?=^Bundle-Ether[^\n]* is up, line protocol is)", output, flags=re.M)`:
cut before every line start where the header pattern matches.  The first
segment is the text before the first header (empty when the output opens
with one). -/
def splitStanzas (s : List Char) : List (List Char) :=
  splitGo s [] true

/-- Anchored matcher for `^(Bundle-Ether\S+)`: the literal, then a
nonempty maximal run of non-whitespace; the capture includes the
literal. -/
def matchIfAt (s : List Char) : Option (List Char) :=
  match stripLit bundleLit s with
  | none => none
  | some s1 =>
    let tok := s1.takeWhile (fun c => !isSpace c)
    if tok.isEmpty then none else some (bundleLit ++ tok)

/-- The label literal of the description line. -/
def descLit : List Char := "Description:".toList

/-- Anchored matcher for `^\s*Description:\s*(.+)$` under `re.M`,
returning the capture.  `\s` also matches newlines, so the greedy
`\s*` after the colon can run across line ends and capture a later
line; when everything after the colon is whitespace the engine
backtracks and `.+`/`$` settle on the last whitespace character that is
not a newline (the capture then strips to the empty string), or the
match fails when that run is all newlines. -/
def matchDescAt (s : List Char) : Option (List Char) :=
  match stripLit descLit (s.dropWhile isSpace) with
  | none => none
  | some s2 =>
    let r := s2.dropWhile isSpace
    if r.isEmpty then
      let t := s2.reverse.dropWhile (· == '\n')
      if t.isEmpty then none else some [t.headD ' ']
    else
      some (r.takeWhile (· != '\n'))

/-- Tail of the `\[BW=(\d+(?:\.\d+)?)\s*G\]` matcher, entered after the
integer digits: the optional fraction, then `\s*`, then `G]`
case-insensitively; returns the fraction text.  When a fraction is
present but `\s*G\]` does not follow it, the regex backtracks to the
fraction-less branch, which then finds `.` where `G` is required and
fails — hence `none`. -/
def bwTail (s2 : List Char) : Option (List Char) :=
  match s2 with
  | c :: t =>
    if c = '.' then
      let d2 := t.takeWhile Char.isDigit
      if d2.isEmpty then none
      else (stripCI bwClose ((t.dropWhile Char.isDigit).dropWhile isSpace)).map
        (fun _ => '.' :: d2)
    else (stripCI bwClose ((c :: t).dropWhile isSpace)).map (fun _ => [])
  | [] => (stripCI bwClose (List.dropWhile isSpace [])).map (fun _ => [])

/-- Anchored matcher for `\[BW=(\d+(?:\.\d+)?)\s*G\]` with `re.I`,
returning the numeric capture. -/
def matchBWAt (s : List Char) : Option (List Char) :=
  match stripCI bwOpen s with
  | none => none
  | some s1 =>
    let d1 := s1.takeWhile Char.isDigit
    if d1.isEmpty then none
    else (bwTail (s1.dropWhile Char.isDigit)).map (fun fr => d1 ++ fr)

/-- The label of the operational-bandwidth field (case-sensitive). -/
def bwLit : List Char := "BW".toList

/-- The unit of the operational-bandwidth field (case-sensitive). -/
def kbitLit : List Char := "Kbit".toList

/-- Anchored matcher for `BW\s+(\d+)\s*Kbit` (the `\b` boundary is
checked by the caller), returning the digit capture. -/
def matchBWKbitAt (s : List Char) : Option (List Char) :=
  match stripLit bwLit s with
  | none => none
  | some s1 =>
    if (s1.takeWhile isSpace).isEmpty then none
    else
      let s2 := s1.dropWhile isSpace
      let d := s2.takeWhile Char.isDigit
      if d.isEmpty then none
      else (stripLit kbitLit ((s2.dropWhile Char.isDigit).dropWhile isSpace)).map
        (fun _ => d)

/-- `\b` holds before the current position given the previous character
(`none` at the start of the block): the previous character must not be a
word character, since `B` is one. -/
def boundaryOk : Option Char → Bool
  | none => true
  | some p => !isWordChar p

/-- Search for `\bBW\s+(\d+)\s*Kbit` carrying the previous character for
the word boundary. -/
def searchBWGo (prev : Option Char) : List Char → Option (List Char)
  | [] => none
  | c :: rest =>
    match (if boundaryOk prev then matchBWKbitAt (c :: rest) else none) with
    | some r => some r
    | none => searchBWGo (some c) rest

/-- The case-insensitive literal of the input-rate counter. -/
def rateLit : List Char := "30 second input rate".toList

/-- The case-insensitive unit of the input-rate counter. -/
def bitsLit : List Char := "bits/sec".toList

/-- Anchored matcher for `30 second input rate\s+(\d+)\s+bits/sec` with
`re.I`, returning the digit capture. -/
def matchInAt (s : List Char) : Option (List Char) :=
  match stripCI rateLit s with
  | none => none
  | some s1 =>
    if (s1.takeWhile isSpace).isEmpty then none
    else
      let s2 := s1.dropWhile isSpace
      let d := s2.takeWhile Char.isDigit
      if d.isEmpty then none
      else
        let s3 := s2.dropWhile Char.isDigit
        if (s3.takeWhile isSpace).isEmpty then none
        else (stripCI bitsLit (s3.dropWhile isSpace)).map (fun _ => d)

/-- The peer-filter literal `[NAME=<peer>]` (`re.escape` makes the peer a
literal; the whole tag is matched case-insensitively). -/
def nameTag (peer : List Char) : List Char :=
  "[NAME=".toList ++ peer ++ "]".toList

/-! ## The record and the parser -/

/-- One row of `parse_cisco_xr`'s result (the dict appended at the end of
the loop body). -/
structure CapRow where
  ifname : List Char
  desc : List Char
  conf_bps : Option ℚ
  avail_bps : Option ℚ
  max_input_bps : Option ℚ
  util : Option ℚ
  deriving Repr, DecidableEq

/-- Python truthiness of an optional float: `None` and `0.0` are falsy,
every other value truthy. -/
def truthy : Option ℚ → Bool
  | none => false
  | some x => x != 0

/-- Division as Python performs it: raises `ZeroDivisionError` on a zero
denominator. -/
def qdivExc (x y : ℚ) : Except String ℚ :=
  if y = 0 then Except.error "ZeroDivisionError" else Except.ok (x / y)

/-- `util = (max_in_bps/avail_bps) if (max_in_bps and avail_bps) else None`.
The guard is Python truthiness of both operands; when it holds both are
`some`, so `getD 0` only unwraps them. -/
def utilOf (m a : Option ℚ) : Except String (Option ℚ) :=
  if truthy m && truthy a then (qdivExc (m.getD 0) (a.getD 0)).map some
  else Except.ok none

/-- The description of a stanza:
`m_desc.group(1).strip() if m_desc else ""`. -/
def descOf (blk : List Char) : List Char :=
  pstrip ((searchLines matchDescAt blk).getD [])

/-- Configured capacity from the description:
`float(m_bwdesc.group(1))*1e9 if m_bwdesc else None`. -/
def confOf (desc : List Char) : Option ℚ :=
  (searchFirst matchBWAt desc).map (fun t => parseDec t * 1000000000)

/-- Available capacity from the stanza body:
`float(m_av.group(1))*1e3 if m_av else None`. -/
def availOf (blk : List Char) : Option ℚ :=
  (searchBWGo none blk).map (fun t => (digitsToNat t : ℚ) * 1000)

/-- Observed input rate from the stanza body:
`float(m_in.group(1)) if m_in else None`. -/
def maxInOf (blk : List Char) : Option ℚ :=
  (searchFirst matchInAt blk).map (fun t => (digitsToNat t : ℚ))

/-- The loop body of `parse_cisco_xr` for one stanza: `Except.ok none`
when the stanza is skipped (`continue`), `Except.ok (some row)` when a
record is appended, `Except.error` when the body raises. -/
def parseBlock (peer blk : List Char) : Except String (Option CapRow) :=
  if blk.all isSpace then Except.ok none
  else
    match searchLines matchIfAt blk with
    | none => Except.ok none
    | some ifname =>
      let desc := descOf blk
      if containsCI (nameTag peer) desc then
        match utilOf (maxInOf blk) (availOf blk) with
        | Except.error e => Except.error e
        | Except.ok u =>
          Except.ok (some ⟨ifname, desc, confOf desc, availOf blk, maxInOf blk, u⟩)
      else Except.ok none

/-- Fold of `parseBlock` over the stanzas, in output order. -/
def parseBlocks (peer : List Char) : List (List Char) → Except String (List CapRow)
  | [] => Except.ok []
  | b :: bs =>
    match parseBlock peer b with
    | Except.error e => Except.error e
    | Except.ok none => parseBlocks peer bs
    | Except.ok (some row) =>
      match parseBlocks peer bs with
      | Except.error e => Except.error e
      | Except.ok rest => Except.ok (row :: rest)

/-- `parse_cisco_xr(output, peer)`: split into stanzas, parse each, return
the records in stanza order.  An uncaught exception of the loop body is
the `Except.error` case. -/
def parse_cisco_xr (output peer : String) : Except String (List CapRow) :=
  parseBlocks peer.toList (splitStanzas output.toList)

/-! ## Thresholds, classifier, mismatch detector -/

/-- `<60% = green`. -/
def GREEN_MAX : ℚ := 0.60

/-- `60-80% = orange; >80% = red`. -/
def ORANGE_MAX : ℚ := 0.80

/-- `2% mismatch triggers amber row`. -/
def MISMATCH_TOL : ℚ := 0.02

/-- Model of the f-string `f"{pct:.1f}%"` on the exact rational `pct`
(nonnegative in every reachable call): one fractional digit, rounding to
nearest. -/
def fmtPct (pct : ℚ) : String :=
  let n : ℕ := (round (pct * 10) : ℤ).toNat
  toString (n / 10) ++ "." ++ toString (n % 10) ++ "%"

/-- `classify_util(util)`: CSS class and display string.  Class
`util-green` is the spec's tier "normal", `util-orange` "elevated",
`util-red` "critical"; `("", "—")` is the spec's tier "unknown" with the
placeholder glyph. -/
def classify_util (util : Option ℚ) : String × String :=
  match util with
  | none => ("", "—")
  | some u =>
    let pct := u * 100
    if pct < GREEN_MAX * 100 then ("util-green", fmtPct pct)
    else if pct ≤ ORANGE_MAX * 100 then ("util-orange", fmtPct pct)
    else ("util-red", fmtPct pct)

/-- `capacity_mismatch(conf_bps, avail_bps)`: false when either operand is
falsy (`None` or zero), else the 2% relative-difference test.  Under the
truthiness guard both operands are `some`, so `getD 0` only unwraps. -/
def capacity_mismatch (conf_bps avail_bps : Option ℚ) : Bool :=
  if !truthy conf_bps || !truthy avail_bps then false
  else
    decide (|conf_bps.getD 0 - avail_bps.getD 0|
      / max (conf_bps.getD 0) (avail_bps.getD 0) > MISMATCH_TOL)

/-- Declarative reading of "the description contains a bracketed tag
`[BW=<number>G]`" with the generosity of the source pattern (`re.I` on
the letters, `\s*` before the unit): some split of the description
exhibits the bracket, the case-variant letters, a nonempty digit run, an
optional nonempty fraction, optional whitespace and the closing
unit-bracket.  `confOf` is proven to succeed exactly on descriptions of
this shape. -/
def specHasBWTag (desc : List Char) : Prop :=
  ∃ (pre i f sp post : List Char) (b w g : Char),
    desc = pre ++ ['[', b, w, '='] ++ i ++ f ++ sp ++ [g, ']'] ++ post
    ∧ (b = 'B' ∨ b = 'b') ∧ (w = 'W' ∨ w = 'w') ∧ (g = 'G' ∨ g = 'g')
    ∧ i ≠ [] ∧ (∀ c ∈ i, c.isDigit = true)
    ∧ (f = [] ∨ ∃ fd, f = '.' :: fd ∧ fd ≠ [] ∧ (∀ c ∈ fd, c.isDigit = true))
    ∧ (∀ c ∈ sp, isSpace c = true)

/-! ## Concrete inputs for the scenario, counterexample and witness theorems -/

/-- An output with one matching stanza whose 30-second input rate is
exactly `0 bits/sec` and whose bandwidth is a nonzero `1000 Kbit`. -/
def c1in : String :=
  "Bundle-Ether1 is up, line protocol is up\n Description: [NAME=X]\n BW 1000 Kbit\n 30 second input rate 0 bits/sec\n"

/-- The record the parser emits for `c1in`: the utilization is absent. -/
def c1row : CapRow :=
  ⟨"Bundle-Ether1".toList, "[NAME=X]".toList, none, some 1000000, some 0, none⟩

/-- A full stanza (all numeric fields present) whose description carries
no `[NAME=…]` tag. -/
def c4in : String :=
  "Bundle-Ether3 is up, line protocol is up\n Description: transit link\n BW 1000 Kbit\n 30 second input rate 500 bits/sec\n"

/-- A matching stanza that reports no `BW … Kbit` field at all. -/
def c9in : String :=
  "Bundle-Ether2 is up, line protocol is up\n Description: [NAME=Y]\n"

/-- The record emitted for `c9in`: every numeric field absent. -/
def c9row : CapRow :=
  ⟨"Bundle-Ether2".toList, "[NAME=Y]".toList, none, none, none, none⟩

/-- An output whose only Bundle-Ether status line says `is down` — the
splitting pattern matches nowhere. -/
def c10in : String :=
  "Bundle-Ether9 is down, line protocol is down\n Description: [NAME=X]\n"

/-- The record emitted for `c10in` — for the down interface itself. -/
def c10row : CapRow :=
  ⟨"Bundle-Ether9".toList, "[NAME=X]".toList, none, none, none, none⟩

/-- The spec's scenario input: one stanza, description
`[NAME=NETFLIX][BW=100G]`, body `BW 100000000 Kbit` and
`30 second input rate 85000000000 bits/sec`. -/
def c6in : String :=
  "Bundle-Ether1 is up, line protocol is up\n  Description: [NAME=NETFLIX][BW=100G]\n  BW 100000000 Kbit\n  30 second input rate 85000000000 bits/sec\n"

/-- The record the scenario expects: configured `100e9`, available
`100e9`, observed `85e9`, ratio `0.85`. -/
def c6row : CapRow :=
  ⟨"Bundle-Ether1".toList, "[NAME=NETFLIX][BW=100G]".toList,
    some 100000000000, some 100000000000, some 85000000000, some 0.85⟩

/-! ## Claim C2: classifier tiers and boundaries -/

/-- **C2.** For every present ratio `r` the classifier assigns the
"normal" tier (class `util-green`) iff `r < 0.60`, the "elevated" tier
(class `util-orange`) iff `0.60 ≤ r ≤ 0.80` (both boundaries inclusive),
and the "critical" tier (class `util-red`) iff `r > 0.80`; an absent
ratio gets the "unknown" pair: empty class and the placeholder glyph
with no percentage. -/
theorem classify_util_tiers :
    (∀ r : ℚ,
      ((classify_util (some r)).1 = "util-green" ↔ r < 0.60)
      ∧ ((classify_util (some r)).1 = "util-orange" ↔ 0.60 ≤ r ∧ r ≤ 0.80)
      ∧ ((classify_util (some r)).1 = "util-red" ↔ 0.80 < r))
    ∧ classify_util none = ("", "—") := by
  refine ⟨fun r => ?_, rfl⟩
  have hg : (0.60 : ℚ) * 100 = 60 := by norm_num
  have ho : (0.80 : ℚ) * 100 = 80 := by norm_num
  have e1 : ("util-orange" : String) ≠ "util-green" := by decide
  have e2 : ("util-red" : String) ≠ "util-green" := by decide
  have e3 : ("util-green" : String) ≠ "util-orange" := by decide
  have e4 : ("util-red" : String) ≠ "util-orange" := by decide
  have e5 : ("util-green" : String) ≠ "util-red" := by decide
  have e6 : ("util-orange" : String) ≠ "util-red" := by decide
  simp only [classify_util, GREEN_MAX, ORANGE_MAX, hg, ho]
  split_ifs with h1 h2
  · exact ⟨⟨fun _ => by linarith, fun _ => rfl⟩,
      ⟨fun h => absurd h e3, fun h => by linarith [h.1]⟩,
      ⟨fun h => absurd h e5, fun h => by linarith⟩⟩
  · exact ⟨⟨fun h => absurd h e1, fun h => by linarith⟩,
      ⟨fun _ => ⟨by linarith, by linarith⟩, fun _ => rfl⟩,
      ⟨fun h => absurd h e6, fun h => by linarith⟩⟩
  · exact ⟨⟨fun h => absurd h e2, fun h => by linarith⟩,
      ⟨fun h => absurd h e4, fun h => by linarith [h.2]⟩,
      ⟨fun _ => by linarith, fun _ => rfl⟩⟩

/-! ## Claims C3 and C8: the mismatch detector -/

/-- **C3.** `capacity_mismatch` returns false when either operand is
absent or zero; otherwise it is true iff the relative difference
`|conf - avail| / max conf avail` exceeds the 2% tolerance; in
particular `(100e9, 80e9)` is a mismatch and `(100e9, 99e9)` is not. -/
theorem capacity_mismatch_spec :
    (∀ c a : Option ℚ, (c = none ∨ a = none ∨ c = some 0 ∨ a = some 0) →
      capacity_mismatch c a = false)
    ∧ (∀ cv av : ℚ, cv ≠ 0 → av ≠ 0 →
      (capacity_mismatch (some cv) (some av) = true ↔ |cv - av| / max cv av > 0.02))
    ∧ capacity_mismatch (some (100 * 10 ^ 9)) (some (80 * 10 ^ 9)) = true
    ∧ capacity_mismatch (some (100 * 10 ^ 9)) (some (99 * 10 ^ 9)) = false := by
  refine ⟨?_, ?_, by norm_num [capacity_mismatch, truthy, MISMATCH_TOL],
    by norm_num [capacity_mismatch, truthy, MISMATCH_TOL]⟩
  · rintro c a (rfl | rfl | rfl | rfl) <;>
      simp [capacity_mismatch, truthy]
  · intro cv av hc ha
    simp [capacity_mismatch, truthy, MISMATCH_TOL, hc, ha]

/-- **C8.** For both-present, both-nonzero operands `capacity_mismatch`
is symmetric: the relative-difference formula is evaluated identically
in both argument orders. -/
theorem capacity_mismatch_symm : ∀ a b : ℚ, a ≠ 0 → b ≠ 0 →
    capacity_mismatch (some a) (some b) = capacity_mismatch (some b) (some a) := by
  intro a b ha hb
  have hq : |a - b| / max a b = |b - a| / max b a := by
    rw [abs_sub_comm, max_comm]
  simp [capacity_mismatch, truthy, ha, hb, hq]

/-- Witness for C3 at a concrete nonzero pair: `(1, 2)` has relative
difference `1/2 > 0.02`, so the detector fires. -/
theorem capacity_mismatch_spec_witness :
    capacity_mismatch (some 1) (some 2) = true :=
  (capacity_mismatch_spec.2.1 1 2 (by norm_num) (by norm_num)).mpr (by norm_num)

/-- Witness for C8 at the spec's own test pair `(100, 105)`. -/
theorem capacity_mismatch_symm_witness :
    capacity_mismatch (some 100) (some 105) = capacity_mismatch (some 105) (some 100) :=
  capacity_mismatch_symm 100 105 (by norm_num) (by norm_num)

/-! ## Totality of the parser -/

/-- A truthy optional float holds a nonzero value. -/
theorem truthy_getD_ne_zero {a : Option ℚ} (h : truthy a = true) : a.getD 0 ≠ 0 := by
  cases a with
  | none => simp [truthy] at h
  | some v => simpa [truthy] using h

/-- The guarded utilization computation never raises: the truthiness
guard on `avail_bps` rules out the zero denominator. -/
theorem utilOf_ok (m a : Option ℚ) : ∃ u, utilOf m a = Except.ok u := by
  unfold utilOf
  by_cases h : (truthy m && truthy a) = true
  · rw [if_pos h]
    have ha : truthy a = true := (Bool.and_eq_true _ _).mp h |>.2
    refine ⟨some (m.getD 0 / a.getD 0), ?_⟩
    simp [qdivExc, truthy_getD_ne_zero ha, Except.map]
  · rw [if_neg h]
    exact ⟨none, rfl⟩

/-- Every branch of the loop body returns (no uncaught exception). -/
theorem parseBlock_ok (peer blk : List Char) :
    ∃ r, parseBlock peer blk = Except.ok r := by
  unfold parseBlock
  by_cases hsp : blk.all isSpace
  · exact ⟨none, by simp [hsp]⟩
  · simp only [hsp, Bool.false_eq_true, if_false]
    match hif : searchLines matchIfAt blk with
    | none => exact ⟨none, rfl⟩
    | some ifname =>
      by_cases htag : containsCI (nameTag peer) (descOf blk)
      · simp only [htag, if_true]
        obtain ⟨u, hu⟩ := utilOf_ok (maxInOf blk) (availOf blk)
        exact ⟨some ⟨ifname, descOf blk, confOf (descOf blk), availOf blk, maxInOf blk, u⟩,
          by rw [hu]⟩
      · simp only [htag, if_false]
        exact ⟨none, rfl⟩

/-- The fold over stanzas returns whenever every stanza does. -/
theorem parseBlocks_ok (peer : List Char) :
    ∀ bs, ∃ rows, parseBlocks peer bs = Except.ok rows := by
  intro bs
  induction bs with
  | nil => exact ⟨[], rfl⟩
  | cons b bs ih =>
    obtain ⟨r, hr⟩ := parseBlock_ok peer b
    obtain ⟨rows, hrows⟩ := ih
    cases r with
    | none => exact ⟨rows, by simp [parseBlocks, hr, hrows]⟩
    | some row => exact ⟨row :: rows, by simp [parseBlocks, hr, hrows]⟩

/-- Helper shared by the safety claims: `parse_cisco_xr` is total. -/
theorem parse_cisco_xr_ok (output peer : String) :
    ∃ rows, parse_cisco_xr output peer = Except.ok rows :=
  parseBlocks_ok peer.toList (splitStanzas output.toList)

/-- **C5.** For every raw text and every peer tag the extractor returns a
(possibly empty) list of records and never raises: every stanza that
fails to match the required structure is skipped inside `parseBlock`,
and the one potentially raising operation (the utilization division) is
guarded. -/
theorem parse_never_raises (output peer : String) :
    ∃ rows, parse_cisco_xr output peer = Except.ok rows :=
  parse_cisco_xr_ok output peer

/-! ## The utilization field of an emitted record -/

/-- An emitted record's `util` field is exactly the guarded quotient of
its own `max_input_bps` and `avail_bps` fields. -/
theorem parseBlock_util {peer blk : List Char} {r : CapRow}
    (h : parseBlock peer blk = Except.ok (some r)) :
    utilOf r.max_input_bps r.avail_bps = Except.ok r.util := by
  unfold parseBlock at h
  by_cases hsp : blk.all isSpace
  · simp [hsp] at h
  · simp only [hsp, Bool.false_eq_true, if_false] at h
    match hif : searchLines matchIfAt blk with
    | none => rw [hif] at h; exact absurd h (by simp)
    | some ifname =>
      rw [hif] at h
      by_cases htag : containsCI (nameTag peer) (descOf blk)
      · simp only [htag, if_true] at h
        match hu : utilOf (maxInOf blk) (availOf blk) with
        | Except.error e => rw [hu] at h; exact absurd h (by simp)
        | Except.ok u =>
          rw [hu] at h
          injection h with h1
          injection h1 with h2
          subst h2
          exact hu
      · simp only [htag, if_false] at h
        exact absurd h (by simp)

/-- **C9.** When an emitted record's available capacity is absent or
zero, its utilization ratio is absent (the truthiness guard refuses the
division), and the extractor as a whole never divides by zero — it
always returns. -/
theorem util_absent_without_avail :
    (∀ peer blk : List Char, ∀ r : CapRow,
      parseBlock peer blk = Except.ok (some r) →
      r.avail_bps = none ∨ r.avail_bps = some 0 → r.util = none)
    ∧ (∀ output peer : String, ∃ rows, parse_cisco_xr output peer = Except.ok rows) := by
  constructor
  · intro peer blk r h hav
    have hu := parseBlock_util h
    have hfa : truthy r.avail_bps = false := by
      rcases hav with h0 | h0 <;> simp [h0, truthy]
    rw [utilOf, hfa, Bool.and_false, if_neg (by simp)] at hu
    injection hu with hu
    exact hu.symm
  · exact fun output peer => parse_cisco_xr_ok output peer

/-- **C1 (amended).** When an emitted record's observed input rate is
present but exactly zero, its utilization ratio is absent: Python's
truthiness test `if (max_in_bps and avail_bps)` treats the float `0.0`
like `None`, so the quotient `0.0` is never produced. -/
theorem util_absent_when_input_zero :
    ∀ peer blk : List Char, ∀ r : CapRow,
      parseBlock peer blk = Except.ok (some r) →
      r.max_input_bps = some 0 → r.util = none := by
  intro peer blk r h hm
  have hu := parseBlock_util h
  have hfm : truthy r.max_input_bps = false := by simp [hm, truthy]
  rw [utilOf, hfm, Bool.false_and, if_neg (by simp)] at hu
  injection hu with hu
  exact hu.symm

/-! ## Concrete stanza for C1: zero observed input -/

/-- Evaluation of the loop body on the `c1in` stanza. -/
theorem c1_parseBlock :
    parseBlock "X".toList c1in.toList = Except.ok (some c1row) := by
  have hsp : (c1in.toList.all isSpace) = false := by decide
  have hif : searchLines matchIfAt c1in.toList = some "Bundle-Ether1".toList := by decide
  have hdesc : descOf c1in.toList = "[NAME=X]".toList := by decide
  have htag : containsCI (nameTag "X".toList) "[NAME=X]".toList = true := by decide
  have hbw : searchFirst matchBWAt "[NAME=X]".toList = none := by decide
  have hav : searchBWGo none c1in.toList = some "1000".toList := by decide
  have hin : searchFirst matchInAt c1in.toList = some "0".toList := by decide
  have hd1 : digitsToNat "1000".toList = 1000 := by decide
  have hd2 : digitsToNat "0".toList = 0 := by decide
  have havq : availOf c1in.toList = some 1000000 := by
    rw [availOf, hav]
    simp only [Option.map, hd1]
    norm_num
  have hinq : maxInOf c1in.toList = some 0 := by
    rw [maxInOf, hin]
    simp only [Option.map, hd2]
    norm_num
  have hconf : confOf "[NAME=X]".toList = none := by
    rw [confOf, hbw]
    rfl
  have hutil : utilOf (maxInOf c1in.toList) (availOf c1in.toList) = Except.ok none := by
    rw [hinq, havq]
    simp [utilOf, truthy]
  rw [parseBlock, hsp]
  simp only [Bool.false_eq_true, if_false, hif, hdesc, htag, if_true, hutil, hconf,
    havq, hinq]
  rfl

/-- **C1 (counterexample).** On `c1in` with peer `X` the extractor emits
one record whose body reported the nonzero bandwidth `1000 Kbit` and the
input rate `0 bits/sec`, yet whose `util` field is `none` — not the
defined value `0.0` the claim requires. -/
theorem zero_input_rate_cex :
    parse_cisco_xr c1in "X" = Except.ok [c1row]
    ∧ c1row.avail_bps = some 1000000
    ∧ c1row.max_input_bps = some 0
    ∧ c1row.util = none := by
  refine ⟨?_, rfl, rfl, rfl⟩
  have hsplit : splitStanzas c1in.toList = [[], c1in.toList] := by decide
  have hempty : parseBlock "X".toList [] = Except.ok none := rfl
  rw [parse_cisco_xr, hsplit]
  rw [parseBlocks, hempty, parseBlocks, c1_parseBlock, parseBlocks]

/-- Witness for the amended C1 at the concrete stanza `c1in`. -/
theorem util_absent_when_input_zero_witness : c1row.util = none :=
  util_absent_when_input_zero "X".toList c1in.toList c1row c1_parseBlock rfl

/-! ## Claim C4: the peer filter -/

/-- **C4.** A stanza whose description — the empty string when no
`Description:` line matches — does not contain the case-insensitive
`[NAME=<peer>]` tag is dropped by the loop body: no record, no error,
regardless of the remaining fields. -/
theorem peer_filter_drops :
    ∀ peer blk : List Char,
      containsCI (nameTag peer) (descOf blk) = false →
      parseBlock peer blk = Except.ok none := by
  intro peer blk htag
  rw [parseBlock]
  by_cases hsp : blk.all isSpace
  · rw [if_pos hsp]
  · rw [if_neg (by simp [hsp])]
    match hif : searchLines matchIfAt blk with
    | none => rfl
    | some ifname => simp only [htag, Bool.false_eq_true, if_false]

/-- Witness for C4: a stanza with a description lacking the tag is
dropped even though every other field is present. -/
theorem peer_filter_drops_witness :
    parseBlock "X".toList c4in.toList = Except.ok none :=
  peer_filter_drops "X".toList c4in.toList (by decide)

/-- Evaluation of the loop body on the `c9in` stanza. -/
theorem c9_parseBlock :
    parseBlock "Y".toList c9in.toList = Except.ok (some c9row) := by rfl

/-- Witness for C9 at the concrete stanza `c9in`, whose available
capacity is absent. -/
theorem util_absent_without_avail_witness : c9row.util = none :=
  util_absent_without_avail.1 "Y".toList c9in.toList c9row c9_parseBlock (Or.inl rfl)

/-! ## Claim C10: stanza boundaries -/

/-- **C10 (counterexample).** On `c10in` no line matches the
`… is up, line protocol is` split pattern (the split yields a single
leading block and even position 0 fails the header test), yet the
extractor emits a record whose interface name is the down interface:
text before the first matching header forms a leading block that is
parsed like any stanza. -/
theorem down_interface_record_cex :
    parse_cisco_xr c10in "X" = Except.ok [c10row]
    ∧ (splitStanzas c10in.toList).length = 1
    ∧ headerAt c10in.toList = false := by
  refine ⟨by rfl, by decide, by decide⟩

/-! ## Claim C6: the NETFLIX scenario -/

/-- Evaluation of the loop body on the `c6in` stanza. -/
theorem c6_parseBlock :
    parseBlock "NETFLIX".toList c6in.toList = Except.ok (some c6row) := by
  have hsp : (c6in.toList.all isSpace) = false := by decide
  have hif : searchLines matchIfAt c6in.toList = some "Bundle-Ether1".toList := by decide
  have hdesc : descOf c6in.toList = "[NAME=NETFLIX][BW=100G]".toList := by decide
  have htag : containsCI (nameTag "NETFLIX".toList) "[NAME=NETFLIX][BW=100G]".toList = true := by
    decide
  have hbw : searchFirst matchBWAt "[NAME=NETFLIX][BW=100G]".toList = some "100".toList := by
    decide
  have hav : searchBWGo none c6in.toList = some "100000000".toList := by decide
  have hin : searchFirst matchInAt c6in.toList = some "85000000000".toList := by decide
  have hpd1 : "100".toList.takeWhile (· != '.') = "100".toList := by decide
  have hpd2 : ("100".toList.dropWhile (· != '.')).drop 1 = ([] : List Char) := by decide
  have hd0 : digitsToNat "100".toList = 100 := by decide
  have hdn : digitsToNat ([] : List Char) = 0 := by decide
  have hpd : parseDec "100".toList = 100 := by
    simp only [parseDec, hpd1, hpd2, hd0, hdn, List.length_nil]
    norm_num
  have hd1 : digitsToNat "100000000".toList = 100000000 := by decide
  have hd2 : digitsToNat "85000000000".toList = 85000000000 := by decide
  have hconf : confOf "[NAME=NETFLIX][BW=100G]".toList = some 100000000000 := by
    rw [confOf, hbw]
    simp only [Option.map, hpd]
    norm_num
  have havq : availOf c6in.toList = some 100000000000 := by
    rw [availOf, hav]
    simp only [Option.map, hd1]
    norm_num
  have hinq : maxInOf c6in.toList = some 85000000000 := by
    rw [maxInOf, hin]
    simp only [Option.map, hd2]
    norm_num
  have hutil : utilOf (some 85000000000) (some (100000000000 : ℚ))
      = Except.ok (some 0.85) := by
    simp only [utilOf, truthy]
    norm_num [qdivExc, Except.map]
  rw [parseBlock, hsp]
  simp only [Bool.false_eq_true, if_false, hif, hdesc, htag, if_true, hutil, hconf,
    havq, hinq]
  rfl

/-- **C6.** The scenario: with peer `NETFLIX`, exactly one record with
configured capacity `100e9` (from the `[BW=100G]` tag), available
capacity `100e9` (`100000000 Kbit × 10³`), observed input `85e9` taken
verbatim, utilization `0.85`, critical tier (class `util-red`), and no
capacity mismatch; with peer `GOOGLE`, the same input yields no
records. -/
theorem netflix_scenario :
    parse_cisco_xr c6in "NETFLIX" = Except.ok [c6row]
    ∧ parse_cisco_xr c6in "GOOGLE" = Except.ok []
    ∧ (classify_util c6row.util).1 = "util-red"
    ∧ capacity_mismatch c6row.conf_bps c6row.avail_bps = false := by
  refine ⟨?_, by rfl, ?_, ?_⟩
  · have hsplit : splitStanzas c6in.toList = [[], c6in.toList] := by decide
    have hempty : parseBlock "NETFLIX".toList [] = Except.ok none := rfl
    rw [parse_cisco_xr, hsplit]
    rw [parseBlocks, hempty, parseBlocks, c6_parseBlock, parseBlocks]
  · show (classify_util (some 0.85)).1 = "util-red"
    rw [classify_util]
    rw [if_neg (by norm_num [GREEN_MAX]), if_neg (by norm_num [ORANGE_MAX])]
  · show capacity_mismatch (some 100000000000) (some 100000000000) = false
    norm_num [capacity_mismatch, truthy, MISMATCH_TOL]

/-- `stripLit` succeeds exactly on literal prefixes. -/
theorem stripLit_eq_some {pat : List Char} :
    ∀ {s r : List Char}, stripLit pat s = some r ↔ s = pat ++ r := by
  induction pat with
  | nil =>
    intro s r
    simp [stripLit, eq_comm]
  | cons p ps ih =>
    intro s r
    cases s with
    | nil => simp [stripLit]
    | cons c cs =>
      by_cases hc : c = p
      · subst hc
        simp only [stripLit, beq_self_eq_true, if_true, List.cons_append, List.cons.injEq,
          true_and]
        exact ih
      · simp [stripLit, hc]

/-- A maximal run cut at an element failing `p` ignores what follows. -/
theorem takeWhile_append_of_mem {p : Char → Bool} :
    ∀ {l₁ : List Char} (l₂ : List Char) {a : Char}, a ∈ l₁ → p a = false →
      (l₁ ++ l₂).takeWhile p = l₁.takeWhile p := by
  intro l₁
  induction l₁ with
  | nil => intro l₂ a ha; cases ha
  | cons x xs ih =>
    intro l₂ a ha hp
    simp only [List.cons_append, List.takeWhile_cons]
    by_cases hx : p x = true
    · rw [hx]
      rcases List.mem_cons.mp ha with rfl | hxs
      · exact absurd hx (by simp [hp])
      · rw [ih l₂ hxs hp]
    · simp only [Bool.not_eq_true] at hx
      rw [hx]
      simp

/-- `getLast?` ignores a cons onto a nonempty list. -/
theorem getLast?_cons_ne_nil {c : Char} {u : List Char} (h : u ≠ []) :
    (c :: u).getLast? = u.getLast? := by
  cases u with
  | nil => exact absurd rfl h
  | cons x xs => exact List.getLast?_cons_cons

/-- A `getLast?` value is a member. -/
theorem mem_of_getLast?_eq {u : List Char} {a : Char} (h : u.getLast? = some a) :
    a ∈ u := by
  have : a ∈ u.getLast? := by rw [h]; rfl
  obtain ⟨hne, rfl⟩ := List.mem_getLast?_eq_getLast this
  exact List.getLast_mem hne

/-- The header test survives cutting the text at a line end: if the
pattern matches at the start of `u ++ s'` and `u` ends with a newline,
it matches at the start of `u` alone, because the whole matched region
lies in the first line. -/
theorem headerAt_of_append {u s' : List Char} (hnl : u.getLast? = some '\n')
    (h : headerAt (u ++ s') = true) : headerAt u = true := by
  obtain ⟨h1, h2⟩ := (Bool.and_eq_true _ _).mp h
  obtain ⟨r, hr⟩ := Option.isSome_iff_exists.mp h1
  have hur : u ++ s' = bundleLit ++ r := stripLit_eq_some.mp hr
  have hmem : '\n' ∈ u := mem_of_getLast?_eq hnl
  have hlen : 13 ≤ u.length := by
    by_contra hcon
    have hle : u.length ≤ 12 := by omega
    have h12 : bundleLit.length = 12 := by decide
    have hu : u = bundleLit.take u.length := by
      have h0 := List.take_left u s'
      rw [hur, List.take_append_of_le_length (by omega)] at h0
      exact h0.symm
    have : '\n' ∈ bundleLit := List.take_subset _ _ (hu ▸ hmem)
    exact absurd this (by decide)
  have hdrop_app : (u ++ s').drop 12 = u.drop 12 ++ s' :=
    List.drop_append_of_le_length (by omega)
  have hdne : u.drop 12 ≠ [] := by
    intro hc
    have := congrArg List.length hc
    simp only [List.length_drop, List.length_nil] at this
    omega
  have hlast : (u.drop 12).getLast? = some '\n' := by
    have hsplitu : u.take 12 ++ u.drop 12 = u := List.take_append_drop 12 u
    calc (u.drop 12).getLast? = (u.take 12 ++ u.drop 12).getLast? :=
          (List.getLast?_append_of_ne_nil _ hdne).symm
      _ = u.getLast? := by rw [hsplitu]
      _ = some '\n' := hnl
  have hmem2 : '\n' ∈ u.drop 12 := mem_of_getLast?_eq hlast
  have htw : ((u ++ s').drop 12).takeWhile (· != '\n')
      = (u.drop 12).takeWhile (· != '\n') := by
    rw [hdrop_app]
    exact takeWhile_append_of_mem s' hmem2 (by decide)
  have hpre : stripLit bundleLit u = some (u.drop 12) := by
    apply stripLit_eq_some.mpr
    have h12 : bundleLit.length = 12 := by decide
    have ht : u.take 12 = bundleLit := by
      have hA : (u ++ s').take 12 = u.take 12 :=
        List.take_append_of_le_length (by omega)
      have hB : (bundleLit ++ r).take 12 = bundleLit := by
        rw [← h12]
        exact List.take_left _ _
      rw [← hA, hur, hB]
    conv_lhs => rw [← List.take_append_drop 12 u, ht]
  rw [headerAt, hpre]
  simp only [Option.isSome_some, Bool.true_and]
  rw [← htw]
  exact h2

/-- Shape of the first segment produced by `splitGo`: it is the pending
text `cur` extended by a prefix `u` of the remaining input, and the cut
after `u` (if any) sits just after a newline — except that a cut can
happen immediately when the scan starts at a line start. -/
theorem splitGo_first :
    ∀ (s cur : List Char) (atLS : Bool),
      ∃ u s' bs, splitGo s cur atLS = (cur.reverse ++ u) :: bs
        ∧ s = u ++ s'
        ∧ (s' = [] ∨ u.getLast? = some '\n' ∨ (atLS = true ∧ u = [])) := by
  intro s
  induction s with
  | nil =>
    intro cur atLS
    exact ⟨[], [], [], by simp [splitGo], by simp, Or.inl rfl⟩
  | cons c rest ih =>
    intro cur atLS
    by_cases hg : (atLS && headerAt (c :: rest)) = true
    · refine ⟨[], c :: rest, splitGo rest [c] false, ?_, by simp, ?_⟩
      · simp [splitGo, hg]
      · exact Or.inr (Or.inr ⟨((Bool.and_eq_true _ _).mp hg).1, rfl⟩)
    · obtain ⟨u, s', bs, heq, hsp, hdisj⟩ := ih (c :: cur) (c == '\n')
      refine ⟨c :: u, s', bs, ?_, by rw [hsp]; rfl, ?_⟩
      · rw [splitGo, if_neg hg, heq]
        simp
      · rcases hdisj with h1 | h2 | h3
        · exact Or.inl h1
        · refine Or.inr (Or.inl ?_)
          rw [getLast?_cons_ne_nil, h2]
          intro hc
          rw [hc] at h2
          exact Option.noConfusion h2
        · obtain ⟨hceq, hu⟩ := h3
          subst hu
          refine Or.inr (Or.inl ?_)
          simp only [List.getLast?_singleton, Option.some.injEq]
          exact beq_iff_eq.mp hceq

/-- Every segment after the first that `splitGo` emits begins at a cut
point, and so starts with a line matching the header pattern. -/
theorem splitGo_tail_header :
    ∀ (s cur : List Char) (atLS : Bool) (b : List Char),
      b ∈ (splitGo s cur atLS).drop 1 → headerAt b = true := by
  intro s
  induction s with
  | nil =>
    intro cur atLS b hb
    simp [splitGo] at hb
  | cons c rest ih =>
    intro cur atLS b hb
    by_cases hg : (atLS && headerAt (c :: rest)) = true
    · rw [splitGo, if_pos hg, List.drop_one, List.tail_cons] at hb
      have hh : headerAt (c :: rest) = true := ((Bool.and_eq_true _ _).mp hg).2
      obtain ⟨u, s', bs, heq, hsp, hdisj⟩ := splitGo_first rest [c] false
      rw [heq] at hb
      rcases List.mem_cons.mp hb with rfl | htail
      · show headerAt ([c].reverse ++ u) = true
        rcases hdisj with h1 | h2 | h3
        · subst h1
          rw [List.append_nil] at hsp
          subst hsp
          simpa using hh
        · have hcu : (c :: u) ++ s' = c :: rest := by rw [hsp]; rfl
          have : headerAt ((c :: u) ++ s') = true := by rw [hcu]; exact hh
          have hlast : (c :: u).getLast? = some '\n' := by
            rw [getLast?_cons_ne_nil, h2]
            intro hc
            rw [hc] at h2
            exact Option.noConfusion h2
          simpa using headerAt_of_append hlast this
        · exact absurd h3.1 (by simp)
      · exact ih [c] false b (by rw [heq, List.drop_one, List.tail_cons]; exact htail)
    · rw [splitGo, if_neg hg] at hb
      exact ih (c :: cur) (c == '\n') b hb

/-- **C10 (amended).** Only lines matching
`Bundle-Ether… is up, line protocol is` start a new stanza: every
stanza after the leading block begins with such a line.  (The leading
block — the text before the first matching header — is parsed like any
stanza, so a down interface there can still produce its own record, as
the counterexample shows.) -/
theorem split_only_at_headers :
    ∀ (s : List Char) (b : List Char),
      b ∈ (splitStanzas s).drop 1 → headerAt b = true :=
  fun s b hb => splitGo_tail_header s [] true b hb

/-- Witness for the amended C10: in a two-block split, the non-leading
block does start with a matching header line. -/
theorem split_only_at_headers_witness :
    headerAt "Bundle-Ether7 is up, line protocol is up\n".toList = true :=
  split_only_at_headers "x\nBundle-Ether7 is up, line protocol is up\n".toList
    "Bundle-Ether7 is up, line protocol is up\n".toList (by decide)

/-! ## Claim C7: the configured-capacity tag, characterised -/

/-- Case-insensitive match against `B` means `B` or `b`. -/
theorem lowEq_B_iff {c : Char} : lowEq c 'B' = true ↔ c = 'B' ∨ c = 'b' := by
  have h98 : Char.toNat 'B' + 32 = 98 := by decide
  simp only [lowEq, Bool.or_eq_true, Bool.and_eq_true, beq_iff_eq]
  constructor
  · rintro ((rfl | ⟨⟨_, hl⟩, _⟩) | ⟨⟨_, _⟩, hn⟩)
    · exact Or.inl rfl
    · exact absurd hl (by decide)
    · refine Or.inr ?_
      rw [h98] at hn
      have h2 := congrArg Char.ofNat hn
      rw [Char.ofNat_toNat] at h2
      exact h2.trans (by decide)
  · rintro (rfl | rfl)
    · exact Or.inl (Or.inl rfl)
    · exact Or.inr ⟨⟨by decide, by decide⟩, by decide⟩

/-- Case-insensitive match against `W` means `W` or `w`. -/
theorem lowEq_W_iff {c : Char} : lowEq c 'W' = true ↔ c = 'W' ∨ c = 'w' := by
  have h119 : Char.toNat 'W' + 32 = 119 := by decide
  simp only [lowEq, Bool.or_eq_true, Bool.and_eq_true, beq_iff_eq]
  constructor
  · rintro ((rfl | ⟨⟨_, hl⟩, _⟩) | ⟨⟨_, _⟩, hn⟩)
    · exact Or.inl rfl
    · exact absurd hl (by decide)
    · refine Or.inr ?_
      rw [h119] at hn
      have h2 := congrArg Char.ofNat hn
      rw [Char.ofNat_toNat] at h2
      exact h2.trans (by decide)
  · rintro (rfl | rfl)
    · exact Or.inl (Or.inl rfl)
    · exact Or.inr ⟨⟨by decide, by decide⟩, by decide⟩

/-- Case-insensitive match against `G` means `G` or `g`. -/
theorem lowEq_G_iff {c : Char} : lowEq c 'G' = true ↔ c = 'G' ∨ c = 'g' := by
  have h103 : Char.toNat 'G' + 32 = 103 := by decide
  simp only [lowEq, Bool.or_eq_true, Bool.and_eq_true, beq_iff_eq]
  constructor
  · rintro ((rfl | ⟨⟨_, hl⟩, _⟩) | ⟨⟨_, _⟩, hn⟩)
    · exact Or.inl rfl
    · exact absurd hl (by decide)
    · refine Or.inr ?_
      rw [h103] at hn
      have h2 := congrArg Char.ofNat hn
      rw [Char.ofNat_toNat] at h2
      exact h2.trans (by decide)
  · rintro (rfl | rfl)
    · exact Or.inl (Or.inl rfl)
    · exact Or.inr ⟨⟨by decide, by decide⟩, by decide⟩

/-- Case-insensitive match against a caseless character is equality. -/
theorem lowEq_caseless_iff {c d : Char} (h1 : d.isLower = false) (h2 : d.isUpper = false) :
    (lowEq c d = true) ↔ c = d := by
  simp [lowEq, h1, h2]

/-- `stripCI` succeeds exactly on pointwise case-insensitive prefixes. -/
theorem stripCI_eq_some {pat : List Char} :
    ∀ {s r : List Char}, stripCI pat s = some r ↔
      ∃ u, s = u ++ r ∧ List.Forall₂ (fun c p => lowEq c p = true) u pat := by
  induction pat with
  | nil =>
    intro s r
    simp only [stripCI, Option.some.injEq]
    constructor
    · rintro rfl
      exact ⟨[], rfl, List.Forall₂.nil⟩
    · rintro ⟨u, rfl, hu⟩
      cases hu
      rfl
  | cons p ps ih =>
    intro s r
    constructor
    · intro h
      cases s with
      | nil => exact absurd h (by simp [stripCI])
      | cons c cs =>
        rw [stripCI] at h
        by_cases hc : lowEq c p = true
        · rw [if_pos hc] at h
          obtain ⟨u, rfl, hu⟩ := ih.mp h
          exact ⟨c :: u, rfl, List.Forall₂.cons hc hu⟩
        · rw [if_neg hc] at h
          exact absurd h (by simp)
    · rintro ⟨u, hs, hu⟩
      cases hu with
      | cons hc hrest =>
        subst hs
        rw [List.cons_append, stripCI, if_pos hc]
        exact ih.mpr ⟨_, rfl, hrest⟩

/-- A successful unanchored search decomposes the text at the match
position. -/
theorem searchFirst_eq_some {α : Type} {f : List Char → Option α} :
    ∀ {s : List Char} {t : α}, searchFirst f s = some t →
      ∃ pre suf, s = pre ++ suf ∧ f suf = some t := by
  intro s
  induction s with
  | nil =>
    intro t h
    rw [searchFirst] at h
    exact ⟨[], [], rfl, h⟩
  | cons c rest ih =>
    intro t h
    rw [searchFirst] at h
    match hf : f (c :: rest) with
    | some r =>
      rw [hf] at h
      exact ⟨[], c :: rest, rfl, hf.trans h⟩
    | none =>
      rw [hf] at h
      obtain ⟨pre, suf, heq, hm⟩ := ih h
      exact ⟨c :: pre, suf, by rw [heq]; rfl, hm⟩

/-- If the anchored matcher succeeds at some position, the search
succeeds. -/
theorem searchFirst_isSome_of {α : Type} {f : List Char → Option α} :
    ∀ (pre : List Char) {suf : List Char} {t : α}, f suf = some t →
      (searchFirst f (pre ++ suf)).isSome = true := by
  intro pre
  induction pre with
  | nil =>
    intro suf t h
    cases suf with
    | nil => rw [List.nil_append, searchFirst, h]; rfl
    | cons c cs => rw [List.nil_append, searchFirst, h]; rfl
  | cons c cs ih =>
    intro suf t h
    rw [List.cons_append, searchFirst]
    match hf : f (c :: (cs ++ suf)) with
    | some r => rfl
    | none => exact ih h

/-- Splitting an append at a maximal run: when every element of `l₁`
satisfies `p` and the head of `l₂` (if any) does not, `takeWhile` and
`dropWhile` cut exactly at the boundary. -/
theorem takeWhile_dropWhile_append {p : Char → Bool} :
    ∀ {l₁ : List Char} (l₂ : List Char), (∀ c ∈ l₁, p c = true) →
      (∀ c, l₂.head? = some c → p c = false) →
      (l₁ ++ l₂).takeWhile p = l₁ ∧ (l₁ ++ l₂).dropWhile p = l₂ := by
  intro l₁
  induction l₁ with
  | nil =>
    intro l₂ _ h2
    cases l₂ with
    | nil => exact ⟨rfl, rfl⟩
    | cons c cs =>
      have hc : p c = false := h2 c rfl
      exact ⟨by rw [List.nil_append, List.takeWhile_cons_of_neg (by simp [hc])],
        by rw [List.nil_append, List.dropWhile_cons_of_neg (by simp [hc])]⟩
  | cons x xs ih =>
    intro l₂ h1 h2
    have hx : p x = true := h1 x (List.mem_cons_self x xs)
    obtain ⟨ht, hd⟩ := ih l₂ (fun c hc => h1 c (List.mem_cons_of_mem x hc)) h2
    exact ⟨by rw [List.cons_append, List.takeWhile_cons_of_pos hx, ht],
      by rw [List.cons_append, List.dropWhile_cons_of_pos hx, hd]⟩

/-- The head surviving `dropWhile` fails the predicate. -/
theorem head?_dropWhile_false {p : Char → Bool} :
    ∀ {l : List Char} {c : Char}, (l.dropWhile p).head? = some c → p c = false := by
  intro l
  induction l with
  | nil => intro c h; exact absurd h (by simp)
  | cons x xs ih =>
    intro c h
    by_cases hx : p x = true
    · rw [List.dropWhile_cons_of_pos hx] at h
      exact ih h
    · rw [List.dropWhile_cons_of_neg hx] at h
      simp only [List.head?_cons, Option.some.injEq] at h
      subst h
      simpa using hx

/-- What a successful `bwTail` says about its input: an optional
fraction, a whitespace run, and a case-variant `G]`, with the fraction
as capture. -/
theorem bwTail_spec {s2 fr : List Char} (h : bwTail s2 = some fr) :
    ∃ (f sp post : List Char) (g : Char),
      s2 = f ++ sp ++ [g, ']'] ++ post
      ∧ (g = 'G' ∨ g = 'g')
      ∧ (f = [] ∨ ∃ fd, f = '.' :: fd ∧ fd ≠ [] ∧ (∀ c ∈ fd, c.isDigit = true))
      ∧ (∀ c ∈ sp, isSpace c = true)
      ∧ fr = f := by
  have hclose : ∀ {x rest : List Char}, stripCI bwClose x = some rest →
      ∃ g, x = [g, ']'] ++ rest ∧ (g = 'G' ∨ g = 'g') := by
    intro x rest hx
    obtain ⟨v, hxv, hv⟩ := stripCI_eq_some.mp hx
    have hbc : bwClose = ['G', ']'] := by decide
    rw [hbc] at hv
    cases hv with
    | cons hg hv2 =>
      cases hv2 with
      | cons hrb hv3 =>
        cases hv3
        refine ⟨_, ?_, lowEq_G_iff.mp hg⟩
        rw [hxv, (lowEq_caseless_iff (by decide) (by decide)).mp hrb]
  match s2 with
  | [] =>
    exact absurd h (by simp [bwTail, stripCI, bwClose])
  | c :: tl =>
    rw [bwTail] at h
    by_cases hc : c = '.'
    · rw [if_pos hc] at h
      subst hc
      by_cases hd2 : (tl.takeWhile Char.isDigit).isEmpty = true
      · rw [if_pos hd2] at h
        exact absurd h (by simp)
      · rw [if_neg hd2] at h
        match hsc : stripCI bwClose ((tl.dropWhile Char.isDigit).dropWhile isSpace) with
        | none => rw [hsc] at h; exact absurd h (by simp)
        | some rest =>
          rw [hsc] at h
          simp only [Option.map_some', Option.some.injEq] at h
          obtain ⟨g, hx, hg⟩ := hclose hsc
          refine ⟨'.' :: tl.takeWhile Char.isDigit,
            (tl.dropWhile Char.isDigit).takeWhile isSpace, rest, g, ?_, hg, ?_, ?_, h.symm⟩
          · have e1 : tl.takeWhile Char.isDigit ++ tl.dropWhile Char.isDigit = tl :=
              List.takeWhile_append_dropWhile Char.isDigit tl
            have e2 : (tl.dropWhile Char.isDigit).takeWhile isSpace
                ++ (tl.dropWhile Char.isDigit).dropWhile isSpace
                = tl.dropWhile Char.isDigit :=
              List.takeWhile_append_dropWhile isSpace (tl.dropWhile Char.isDigit)
            calc ('.' : Char) :: tl = '.' :: (tl.takeWhile Char.isDigit
                  ++ tl.dropWhile Char.isDigit) := by rw [e1]
              _ = '.' :: (tl.takeWhile Char.isDigit
                  ++ ((tl.dropWhile Char.isDigit).takeWhile isSpace
                    ++ (tl.dropWhile Char.isDigit).dropWhile isSpace)) := by rw [e2]
              _ = ('.' :: tl.takeWhile Char.isDigit)
                  ++ (tl.dropWhile Char.isDigit).takeWhile isSpace
                  ++ [g, ']'] ++ rest := by rw [hx]; simp [List.append_assoc]
          · refine Or.inr ⟨tl.takeWhile Char.isDigit, rfl, ?_, ?_⟩
            · intro hnil
              rw [hnil] at hd2
              exact hd2 rfl
            · intro c hcmem
              exact List.mem_takeWhile_imp hcmem
          · intro c hcmem
            exact List.mem_takeWhile_imp hcmem
    · rw [if_neg hc] at h
      match hsc : stripCI bwClose ((c :: tl).dropWhile isSpace) with
      | none => rw [hsc] at h; exact absurd h (by simp)
      | some rest =>
        rw [hsc] at h
        simp only [Option.map_some', Option.some.injEq] at h
        obtain ⟨g, hx, hg⟩ := hclose hsc
        refine ⟨[], (c :: tl).takeWhile isSpace, rest, g, ?_, hg, Or.inl rfl, ?_, h.symm⟩
        · have e2 : (c :: tl).takeWhile isSpace ++ (c :: tl).dropWhile isSpace
              = c :: tl := List.takeWhile_append_dropWhile isSpace (c :: tl)
          calc (c :: tl : List Char)
              = (c :: tl).takeWhile isSpace ++ (c :: tl).dropWhile isSpace := e2.symm
            _ = [] ++ (c :: tl).takeWhile isSpace ++ [g, ']'] ++ rest := by
                rw [hx]; simp [List.append_assoc]
        · intro d hdmem
          exact List.mem_takeWhile_imp hdmem

/-- What a successful `matchBWAt` says about its input: the full
declarative decomposition of the `\[BW=(\d+(?:\.\d+)?)\s*G\]` pattern. -/
theorem matchBWAt_spec {s t : List Char} (h : matchBWAt s = some t) :
    ∃ (i f sp post : List Char) (b w g : Char),
      s = ['[', b, w, '='] ++ i ++ f ++ sp ++ [g, ']'] ++ post
      ∧ (b = 'B' ∨ b = 'b') ∧ (w = 'W' ∨ w = 'w') ∧ (g = 'G' ∨ g = 'g')
      ∧ i ≠ [] ∧ (∀ c ∈ i, c.isDigit = true)
      ∧ (f = [] ∨ ∃ fd, f = '.' :: fd ∧ fd ≠ [] ∧ (∀ c ∈ fd, c.isDigit = true))
      ∧ (∀ c ∈ sp, isSpace c = true) := by
  rw [matchBWAt] at h
  match hso : stripCI bwOpen s with
  | none => rw [hso] at h; exact absurd h (by simp)
  | some s1 =>
    rw [hso] at h
    dsimp only at h
    obtain ⟨u, hs, hu⟩ := stripCI_eq_some.mp hso
    have hbo : bwOpen = ['[', 'B', 'W', '='] := by decide
    rw [hbo] at hu
    cases hu with
    | cons h0 hu1 =>
      cases hu1 with
      | cons h1 hu2 =>
        cases hu2 with
        | cons h2 hu3 =>
          cases hu3 with
          | cons h3 hu4 =>
            cases hu4
            by_cases hd1 : (s1.takeWhile Char.isDigit).isEmpty = true
            · rw [if_pos hd1] at h
              exact absurd h (by simp)
            · rw [if_neg hd1] at h
              match hbt : bwTail (s1.dropWhile Char.isDigit) with
              | none => rw [hbt] at h; exact absurd h (by simp)
              | some fr =>
                obtain ⟨f, sp, post, g, hdec, hg, hf, hsp, _⟩ := bwTail_spec hbt
                refine ⟨s1.takeWhile Char.isDigit, f, sp, post, _, _, g, ?_,
                  lowEq_B_iff.mp h1, lowEq_W_iff.mp h2, hg, ?_, ?_, hf, hsp⟩
                · have ha0 : _ = '[' := (lowEq_caseless_iff (by decide) (by decide)).mp h0
                  have ha3 : _ = '=' := (lowEq_caseless_iff (by decide) (by decide)).mp h3
                  subst ha0 ha3
                  have e1 : s1.takeWhile Char.isDigit ++ s1.dropWhile Char.isDigit = s1 :=
                    List.takeWhile_append_dropWhile Char.isDigit s1
                  have hstep : s1
                      = s1.takeWhile Char.isDigit ++ (f ++ sp ++ [g, ']'] ++ post) := by
                    conv_lhs => rw [← e1]
                    rw [hdec]
                  rw [hs]
                  conv_lhs => rw [hstep]
                  simp [List.append_assoc]
                · intro hnil
                  rw [hnil] at hd1
                  exact hd1 rfl
                · intro c hcmem
                  exact List.mem_takeWhile_imp hcmem

/-- A whitespace character is not a digit. -/
theorem isSpace_not_digit {c : Char} (h : isSpace c = true) : c.isDigit = false := by
  simp only [isSpace, Bool.or_eq_true, beq_iff_eq] at h
  rcases h with ((((rfl | rfl) | rfl) | rfl) | rfl) | rfl <;> decide

/-- A whitespace character is not a dot. -/
theorem isSpace_ne_dot {c : Char} (h : isSpace c = true) : c ≠ '.' := by
  simp only [isSpace, Bool.or_eq_true, beq_iff_eq] at h
  rcases h with ((((rfl | rfl) | rfl) | rfl) | rfl) | rfl <;> decide

/-- A whitespace character is not itself whitespace-free: head test for
the unit bracket. -/
theorem g_not_space {g : Char} (hg : g = 'G' ∨ g = 'g') : isSpace g = false := by
  rcases hg with rfl | rfl <;> decide

/-- The closing-unit strip succeeds on `[g, ']'] ++ post`. -/
theorem stripCI_bwClose_parts {post : List Char} {g : Char} (hg : g = 'G' ∨ g = 'g') :
    stripCI bwClose ([g, ']'] ++ post) = some post := by
  apply stripCI_eq_some.mpr
  refine ⟨[g, ']'], rfl, ?_⟩
  have hbc : bwClose = ['G', ']'] := by decide
  rw [hbc]
  refine List.Forall₂.cons ?_ (List.Forall₂.cons (by decide) List.Forall₂.nil)
  rcases hg with rfl | rfl <;> decide

/-- The computation of `matchBWAt` on an input in the declarative shape:
it matches and captures the number text. -/
theorem matchBWAt_of_parts {i f sp post : List Char} {b w g : Char}
    (hb : b = 'B' ∨ b = 'b') (hw : w = 'W' ∨ w = 'w') (hg : g = 'G' ∨ g = 'g')
    (hi : i ≠ []) (hid : ∀ c ∈ i, c.isDigit = true)
    (hf : f = [] ∨ ∃ fd, f = '.' :: fd ∧ fd ≠ [] ∧ (∀ c ∈ fd, c.isDigit = true))
    (hsp : ∀ c ∈ sp, isSpace c = true) :
    matchBWAt (['[', b, w, '='] ++ i ++ f ++ sp ++ [g, ']'] ++ post) = some (i ++ f) := by
  have hso : stripCI bwOpen (['[', b, w, '='] ++ i ++ f ++ sp ++ [g, ']'] ++ post)
      = some (i ++ (f ++ (sp ++ ([g, ']'] ++ post)))) := by
    apply stripCI_eq_some.mpr
    refine ⟨['[', b, w, '='], by simp [List.append_assoc], ?_⟩
    have hbo : bwOpen = ['[', 'B', 'W', '='] := by decide
    rw [hbo]
    refine List.Forall₂.cons (by decide) (List.Forall₂.cons ?_
      (List.Forall₂.cons ?_ (List.Forall₂.cons (by decide) List.Forall₂.nil)))
    · rcases hb with rfl | rfl <;> decide
    · rcases hw with rfl | rfl <;> decide
  have hhd : ∀ c, (f ++ (sp ++ ([g, ']'] ++ post))).head? = some c → c.isDigit = false := by
    intro c hc
    rcases hf with rfl | ⟨fd, rfl, _, _⟩
    · rw [List.nil_append] at hc
      cases sp with
      | nil =>
        simp only [List.nil_append, List.cons_append, List.head?_cons,
          Option.some.injEq] at hc
        subst hc
        rcases hg with rfl | rfl <;> decide
      | cons d sp' =>
        simp only [List.cons_append, List.head?_cons, Option.some.injEq] at hc
        subst hc
        exact isSpace_not_digit (hsp _ (List.mem_cons_self _ _))
    · simp only [List.cons_append, List.head?_cons, Option.some.injEq] at hc
      subst hc
      decide
  obtain ⟨htw, hdw⟩ :=
    takeWhile_dropWhile_append (f ++ (sp ++ ([g, ']'] ++ post))) hid hhd
  rw [matchBWAt, hso]
  dsimp only
  rw [htw, hdw]
  have hie : i.isEmpty = false := by
    cases i with
    | nil => exact absurd rfl hi
    | cons x xs => rfl
  rw [hie]
  simp only [Bool.false_eq_true, if_false]
  rcases hf with rfl | ⟨fd, rfl, hfd, hfdd⟩
  · rw [List.nil_append]
    cases sp with
    | nil =>
      rw [List.nil_append]
      show (bwTail (g :: (']' :: post))).map (fun fr => i ++ fr) = some (i ++ [])
      rw [bwTail]
      have hgd : g ≠ '.' := by rcases hg with rfl | rfl <;> decide
      rw [if_neg hgd]
      have hds : (g :: (']' :: post)).dropWhile isSpace = g :: (']' :: post) :=
        List.dropWhile_cons_of_neg (by simp [g_not_space hg])
      rw [hds]
      have hsc : stripCI bwClose (g :: (']' :: post)) = some post :=
        stripCI_bwClose_parts hg
      rw [hsc]
      rfl
    | cons d sp' =>
      show (bwTail ((d :: sp') ++ ([g, ']'] ++ post))).map (fun fr => i ++ fr)
        = some (i ++ [])
      have hd : isSpace d = true := hsp d (List.mem_cons_self d sp')
      rw [List.cons_append, bwTail]
      rw [if_neg (isSpace_ne_dot hd)]
      have hsp' : ∀ c ∈ d :: sp', isSpace c = true := hsp
      have hdw2 : ((d :: sp') ++ ([g, ']'] ++ post)).dropWhile isSpace
          = [g, ']'] ++ post :=
        (takeWhile_dropWhile_append ([g, ']'] ++ post) hsp'
          (by intro c hc
              simp only [List.cons_append, List.head?_cons, Option.some.injEq] at hc
              subst hc
              exact g_not_space hg)).2
      rw [List.cons_append] at hdw2
      rw [hdw2, stripCI_bwClose_parts hg]
      rfl
  · show (bwTail (('.' :: fd) ++ (sp ++ ([g, ']'] ++ post)))).map (fun fr => i ++ fr)
      = some (i ++ ('.' :: fd))
    rw [List.cons_append, bwTail, if_pos rfl]
    have hhd2 : ∀ c, (sp ++ ([g, ']'] ++ post)).head? = some c → c.isDigit = false := by
      intro c hc
      cases sp with
      | nil =>
        simp only [List.nil_append, List.cons_append, List.head?_cons,
          Option.some.injEq] at hc
        subst hc
        rcases hg with rfl | rfl <;> decide
      | cons d sp' =>
        simp only [List.cons_append, List.head?_cons, Option.some.injEq] at hc
        subst hc
        exact isSpace_not_digit (hsp _ (List.mem_cons_self _ _))
    obtain ⟨htw2, hdw2⟩ :=
      takeWhile_dropWhile_append (sp ++ ([g, ']'] ++ post)) hfdd hhd2
    rw [htw2, hdw2]
    dsimp only
    have hfe : fd.isEmpty = false := by
      cases fd with
      | nil => exact absurd rfl hfd
      | cons x xs => rfl
    rw [hfe]
    simp only [Bool.false_eq_true, if_false]
    have hdw3 : (sp ++ ([g, ']'] ++ post)).dropWhile isSpace = [g, ']'] ++ post :=
      (takeWhile_dropWhile_append ([g, ']'] ++ post) hsp
        (by intro c hc
            simp only [List.cons_append, List.head?_cons, Option.some.injEq] at hc
            subst hc
            exact g_not_space hg)).2
    rw [hdw3, stripCI_bwClose_parts hg]
    rfl

/-- A match at the very start makes the search succeed with it. -/
theorem searchFirst_of_matchHere {α : Type} {f : List Char → Option α} :
    ∀ {s : List Char} {t : α}, f s = some t → searchFirst f s = some t := by
  intro s t h
  cases s with
  | nil => rw [searchFirst]; exact h
  | cons c cs => rw [searchFirst, h]

/-- `matchBWAt` needs an opening bracket. -/
theorem matchBWAt_head_ne {c : Char} {rest : List Char} (hc : c ≠ '[') :
    matchBWAt (c :: rest) = none := by
  have hso : stripCI bwOpen (c :: rest) = none := by
    have hbo : bwOpen = ['[', 'B', 'W', '='] := by decide
    rw [hbo, stripCI, if_neg]
    intro hle
    exact hc ((lowEq_caseless_iff (by decide) (by decide)).mp hle)
  rw [matchBWAt, hso]

/-- The search for the tag skips a bracket-free leading chunk. -/
theorem searchFirst_matchBWAt_append :
    ∀ {pre : List Char}, '[' ∉ pre → ∀ (s : List Char),
      searchFirst matchBWAt (pre ++ s) = searchFirst matchBWAt s := by
  intro pre
  induction pre with
  | nil => intro _ s; rfl
  | cons c cs ih =>
    intro h s
    rw [List.mem_cons, not_or] at h
    obtain ⟨h1, h2⟩ := h
    rw [List.cons_append, searchFirst, matchBWAt_head_ne (fun hcc => h1 hcc.symm)]
    exact ih h2 s

/-- On a pure digit run the decimal parser is the digit value. -/
theorem parseDec_digits {i : List Char} (hid : ∀ c ∈ i, c.isDigit = true) :
    parseDec i = (digitsToNat i : ℚ) := by
  have hne : ∀ c ∈ i, (c != '.') = true := by
    intro c hc
    have hd := hid c hc
    simp only [bne_iff_ne, ne_eq]
    intro hdot
    subst hdot
    exact absurd hd (by decide)
  have hsplit := takeWhile_dropWhile_append [] hne
    (by intro c hc; exact absurd hc (by simp))
  rw [List.append_nil] at hsplit
  simp only [parseDec, hsplit.1, hsplit.2, List.drop_nil, List.length_nil, pow_zero]
  have h0 : digitsToNat [] = 0 := rfl
  rw [h0]
  norm_num

/-- On a digit run with a fractional part the decimal parser is the
integer value plus the scaled fraction. -/
theorem parseDec_frac {i fd : List Char} (hid : ∀ c ∈ i, c.isDigit = true) :
    parseDec (i ++ ('.' :: fd))
      = (digitsToNat i : ℚ) + (digitsToNat fd : ℚ) / 10 ^ fd.length := by
  have hne : ∀ c ∈ i, (c != '.') = true := by
    intro c hc
    have hd := hid c hc
    simp only [bne_iff_ne, ne_eq]
    intro hdot
    subst hdot
    exact absurd hd (by decide)
  have hsplit := takeWhile_dropWhile_append ('.' :: fd) hne
    (by intro c hc
        simp only [List.head?_cons, Option.some.injEq] at hc
        subst hc
        decide)
  simp only [parseDec, hsplit.1, hsplit.2, List.drop_succ_cons, List.drop_zero]

/-- **C7.** The configured-capacity extraction: `confOf` yields a value
exactly on descriptions containing a `[BW=<number>G]` tag (in the
pattern's generosity: case-variant letters, optional whitespace before
the unit), the extracted value is the tagged number times `10^9` — both
for whole and fractional numbers, for any description whose text before
the tag holds no bracket — and in particular `[BW=10G]` yields exactly
`10_000_000_000`; a description with no such tag yields no value. -/
theorem bw_tag_extraction :
    (∀ desc : List Char, (confOf desc).isSome = true ↔ specHasBWTag desc)
    ∧ (∀ pre i post : List Char, '[' ∉ pre → i ≠ [] → (∀ c ∈ i, c.isDigit = true) →
        confOf (pre ++ ['[', 'B', 'W', '='] ++ i ++ ['G', ']'] ++ post)
          = some ((digitsToNat i : ℚ) * 1000000000))
    ∧ (∀ pre i fd post : List Char, '[' ∉ pre → i ≠ [] → (∀ c ∈ i, c.isDigit = true) →
        fd ≠ [] → (∀ c ∈ fd, c.isDigit = true) →
        confOf (pre ++ ['[', 'B', 'W', '='] ++ i ++ ('.' :: fd) ++ ['G', ']'] ++ post)
          = some (((digitsToNat i : ℚ) + (digitsToNat fd : ℚ) / 10 ^ fd.length)
              * 1000000000))
    ∧ confOf "[BW=10G]".toList = some 10000000000 := by
  have hint : ∀ pre i post : List Char, '[' ∉ pre → i ≠ [] →
      (∀ c ∈ i, c.isDigit = true) →
      confOf (pre ++ ['[', 'B', 'W', '='] ++ i ++ ['G', ']'] ++ post)
        = some ((digitsToNat i : ℚ) * 1000000000) := by
    intro pre i post hpre hi hid
    have harr : pre ++ ['[', 'B', 'W', '='] ++ i ++ ['G', ']'] ++ post
        = pre ++ (['[', 'B', 'W', '='] ++ i ++ [] ++ [] ++ ['G', ']'] ++ post) := by
      simp [List.append_assoc]
    have hm : matchBWAt (['[', 'B', 'W', '='] ++ i ++ [] ++ [] ++ ['G', ']'] ++ post)
        = some (i ++ []) :=
      matchBWAt_of_parts (Or.inl rfl) (Or.inl rfl) (Or.inl rfl) hi hid (Or.inl rfl)
        (by intro c hc; exact absurd hc (by simp))
    rw [confOf, harr, searchFirst_matchBWAt_append hpre,
      searchFirst_of_matchHere hm]
    simp only [List.append_nil, Option.map_some']
    rw [parseDec_digits hid]
  refine ⟨?_, hint, ?_, ?_⟩
  · intro desc
    constructor
    · intro h
      rw [confOf, Option.isSome_map'] at h
      obtain ⟨t, ht⟩ := Option.isSome_iff_exists.mp h
      obtain ⟨pre, suf, rfl, hm⟩ := searchFirst_eq_some ht
      obtain ⟨i, f, sp, post, b, w, g, hdec, hb, hw, hg, hi, hid, hf, hsp⟩ :=
        matchBWAt_spec hm
      refine ⟨pre, i, f, sp, post, b, w, g, ?_, hb, hw, hg, hi, hid, hf, hsp⟩
      rw [hdec]
      simp [List.append_assoc]
    · rintro ⟨pre, i, f, sp, post, b, w, g, rfl, hb, hw, hg, hi, hid, hf, hsp⟩
      rw [confOf, Option.isSome_map']
      have harr : pre ++ ['[', b, w, '='] ++ i ++ f ++ sp ++ [g, ']'] ++ post
          = pre ++ (['[', b, w, '='] ++ i ++ f ++ sp ++ [g, ']'] ++ post) := by
        simp [List.append_assoc]
      rw [harr]
      have hm : matchBWAt (['[', b, w, '='] ++ i ++ f ++ sp ++ [g, ']'] ++ post)
          = some (i ++ f) :=
        matchBWAt_of_parts hb hw hg hi hid hf hsp
      exact searchFirst_isSome_of pre hm
  · intro pre i fd post hpre hi hid hfd hfdd
    have harr : pre ++ ['[', 'B', 'W', '='] ++ i ++ ('.' :: fd) ++ ['G', ']'] ++ post
        = pre ++ (['[', 'B', 'W', '='] ++ i ++ ('.' :: fd) ++ [] ++ ['G', ']'] ++ post) := by
      simp [List.append_assoc]
    have hm : matchBWAt
        (['[', 'B', 'W', '='] ++ i ++ ('.' :: fd) ++ [] ++ ['G', ']'] ++ post)
        = some (i ++ ('.' :: fd)) :=
      matchBWAt_of_parts (Or.inl rfl) (Or.inl rfl) (Or.inl rfl) hi hid
        (Or.inr ⟨fd, rfl, hfd, hfdd⟩)
        (by intro c hc; exact absurd hc (by simp))
    rw [confOf, harr, searchFirst_matchBWAt_append hpre,
      searchFirst_of_matchHere hm]
    simp only [Option.map_some']
    rw [parseDec_frac hid]
  · have hlist : "[BW=10G]".toList
        = [] ++ ['[', 'B', 'W', '='] ++ ['1', '0'] ++ ['G', ']'] ++ [] := by decide
    rw [hlist, hint [] ['1', '0'] [] (by simp) (by simp) (by decide)]
    have hd : digitsToNat ['1', '0'] = 10 := by decide
    rw [hd]
    norm_num

/-- Witness for C7 at a concrete tagged description with surrounding
text: `xx[BW=25G]yy` yields `25e9`. -/
theorem bw_tag_extraction_witness :
    confOf ("xx".toList ++ ['[', 'B', 'W', '='] ++ ['2', '5'] ++ ['G', ']'] ++ "yy".toList)
      = some 25000000000 := by
  have h := bw_tag_extraction.2.1 "xx".toList ['2', '5'] "yy".toList
    (by decide) (by decide) (by decide)
  have hd : digitsToNat ['2', '5'] = 25 := by decide
  rw [h, hd]
  norm_num
